import Mathlib

/-!
Verification of the core text-extraction, attribution, merge and scoring
logic of `app.py` (LinkedIn games tracker), via a shallow embedding of the
relevant functions over `List Char` / `String`.

Modelling conventions:
* Python strings are Lean `String`s; scanning works on `String.data : List Char`
  with explicit `Nat` offsets (Python `m.start()` offsets).
* Python `re` whitespace `\s` is modelled by the six ASCII whitespace
  characters (space, tab, newline, carriage return, vertical tab, form feed);
  `\d` is modelled by the ASCII digits.  `re.IGNORECASE` is modelled by
  ASCII case folding (`lowerChar`).
* The external tolerant date parser (`pd.to_datetime`) is a parameter
  `dp : String → Option String`; `none` models a parse failure (the
  `except` branch of the source).
* All scanners are executable structural recursions (fuel where needed),
  so concrete runs reduce inside the kernel.
-/

/-- ASCII model of Python regex `\s` (space, tab, newline, CR, VT, FF). -/
def isWS (c : Char) : Bool :=
  c = ' ' || c = '\t' || c = '\n' || c = '\r' || c = '\x0b' || c = '\x0c'

/-- ASCII model of Python regex `\d`. -/
def isDigitC (c : Char) : Bool := '0' ≤ c && c ≤ '9'

/-- ASCII case folding, modelling `str.lower` / `re.IGNORECASE` comparisons. -/
def lowerChar (c : Char) : Char :=
  if 'A' ≤ c && c ≤ 'Z' then Char.ofNat (c.toNat + 32) else c

/-- Case-insensitive prefix test: does `s` start with `pat` (after folding)? -/
def ciStartsWith : List Char → List Char → Bool
  | [], _ => true
  | _ :: _, [] => false
  | p :: ps, c :: cs => lowerChar p = lowerChar c && ciStartsWith ps cs

/-- Count of leading characters satisfying `p`. -/
def countWhile (p : Char → Bool) : List Char → Nat
  | [] => 0
  | c :: cs => if p c then countWhile p cs + 1 else 0

/-- Value of a run of ASCII digits, base 10 (Python `int` of a digit group). -/
def natOfDigits (l : List Char) : Nat :=
  l.foldl (fun acc c => acc * 10 + (c.toNat - 48)) 0

/-- Minimum of a list of naturals, `none` on the empty list. -/
def listMin : List Nat → Option Nat
  | [] => none
  | x :: xs =>
    match listMin xs with
    | none => some x
    | some m => some (min x m)

/-- Python `str.strip()`: remove whitespace from both ends. -/
def pyStrip (s : String) : String :=
  String.mk (((s.data.dropWhile isWS).reverse.dropWhile isWS).reverse)

/-- Python string `<` (lexicographic by code point), kernel-computable. -/
def strLtChars : List Char → List Char → Bool
  | [], [] => false
  | [], _ :: _ => true
  | _ :: _, [] => false
  | c :: cs, d :: ds => if c < d then true else if d < c then false else strLtChars cs ds

-- ── Data model ────────────────────────────────────────────────────────────────

/-- One extracted game result record (a row of the tidy results table). -/
structure GameResult where
  sender : String
  date : Option String
  game : String
  puzzle_num : Nat
  time_sec : Nat
deriving DecidableEq

/-- One row of the messages CSV, reduced to the three used fields.
A missing column is modelled as the empty string, as in the source
(`str(row[c]) if c else ""`). -/
structure Row where
  sender : String
  content : String
  date_s : String
deriving DecidableEq

/-- One head-to-head comparison record appended by `compute_scores`. -/
structure Duel where
  puzzle_num : Nat
  my_time : Nat
  contact_time : Nat
  winner : String
deriving DecidableEq

/-- Per-game counters and duel list built by `compute_scores`. -/
structure GameScore where
  me : Nat
  contact : Nat
  tie : Nat
  duels : List Duel
deriving DecidableEq

/-- The fixed game list `GAMES` of the source. -/
def GAMES : List String := ["Tango", "Queens", "Zip", "Mini Sudoku"]

-- ── to_seconds / fmt_time ─────────────────────────────────────────────────────

/-- Source `to_seconds`: the digit groups are already converted to `Nat`. -/
def to_seconds (minutes seconds : Nat) : Nat := minutes * 60 + seconds

/-- Zero-pad to two digits, modelling the Python format spec `{:02d}`. -/
def pad2 (n : Nat) : String := if n < 10 then "0" ++ toString n else toString n

/-- Source `fmt_time`: `f"{total_seconds // 60}:{total_seconds % 60:02d}"`. -/
def fmt_time (total_seconds : Nat) : String :=
  toString (total_seconds / 60) ++ ":" ++ pad2 (total_seconds % 60)

-- ── Token grammar (GAME_RE) ───────────────────────────────────────────────────

/-- The ordinal-glyph character class `[º°]` of `GAME_RE`: the masculine
ordinal indicator U+00BA and the degree sign U+00B0. -/
def isOrdChar (c : Char) : Bool := c = 'º' || c = '°'

/-- The puzzle-marker alternation `(?:n\.?[º°]|#)` of `GAME_RE`, at the head
of `l`; returns the number of characters consumed.  The optional dot is
greedy; if the character after `n.` is not in the class, the dot-free branch
would require the class at the dot itself, which also fails. -/
def markerLen (l : List Char) : Option Nat :=
  match l with
  | '#' :: _ => some 1
  | c :: rest =>
    if lowerChar c = 'n' then
      match rest with
      | '.' :: c2 :: _ => if isOrdChar c2 then some 3 else none
      | c2 :: _ => if isOrdChar c2 then some 2 else none
      | [] => none
    else none
  | [] => none

/-- The game-name alternation `(Mini Sudoku|Tango|Queens|Zip)` of `GAME_RE`
(case-insensitive, first alternative first; the four first letters are
distinct, so the alternation is deterministic).  Returns the raw matched
slice and its length. -/
def nameAlt (l : List Char) : Option (String × Nat) :=
  if ciStartsWith "mini sudoku".data l then some (String.mk (l.take 11), 11)
  else if ciStartsWith "tango".data l then some (String.mk (l.take 5), 5)
  else if ciStartsWith "queens".data l then some (String.mk (l.take 6), 6)
  else if ciStartsWith "zip".data l then some (String.mk (l.take 3), 3)
  else none

/-- A single `GAME_RE` match anchored at the head of `l`:
`(raw game name, puzzle number, minutes, seconds, total match length)`.
Mirrors `(Mini Sudoku|Tango|Queens|Zip)\s+(?:n\.?[º°]|#)\s*(\d+)\s*\|\s*(\d+):(\d+)`;
every quantified piece is followed by a disjoint character, so the greedy
runs need no backtracking. -/
def matchGameAt (l : List Char) : Option (String × Nat × Nat × Nat × Nat) :=
  match nameAlt l with
  | none => none
  | some (raw, k) =>
    let r1 := l.drop k
    let w1 := countWhile isWS r1
    if w1 = 0 then none else
    let r2 := r1.drop w1
    match markerLen r2 with
    | none => none
    | some km =>
      let r3 := r2.drop km
      let w2 := countWhile isWS r3
      let r4 := r3.drop w2
      let d1 := countWhile isDigitC r4
      if d1 = 0 then none else
      let puzzle := natOfDigits (r4.take d1)
      let r5 := r4.drop d1
      let w3 := countWhile isWS r5
      match r5.drop w3 with
      | '|' :: r7 =>
        let w4 := countWhile isWS r7
        let r8 := r7.drop w4
        let d2 := countWhile isDigitC r8
        if d2 = 0 then none else
        let mins := natOfDigits (r8.take d2)
        match (r8.drop d2) with
        | ':' :: r10 =>
          let d3 := countWhile isDigitC r10
          if d3 = 0 then none else
          let secs := natOfDigits (r10.take d3)
          some (raw, puzzle, mins, secs, k + w1 + km + w2 + d1 + w3 + 1 + w4 + d2 + 1 + d3)
        | _ => none
      | _ => none

/-- One token produced by scanning with `GAME_RE.finditer`. -/
structure Tok where
  pos : Nat
  raw : String
  puzzle : Nat
  mins : Nat
  secs : Nat
deriving DecidableEq

/-- The `GAME_RE.finditer` scan: try every position left to right, skip past
each match (non-overlapping).  `fuel` bounds the recursion; the caller
supplies `t.length + 1`, enough since the position strictly increases. -/
def gameScanGo (t : List Char) : Nat → Nat → List Tok
  | 0, _ => []
  | fuel + 1, p =>
    if p < t.length then
      match matchGameAt (t.drop p) with
      | some (raw, puzzle, mins, secs, tot) =>
        { pos := p, raw := raw, puzzle := puzzle, mins := mins, secs := secs } ::
          gameScanGo t fuel (p + tot)
      | none => gameScanGo t fuel (p + 1)
    else []

/-- All `GAME_RE` matches of `text`, in order of occurrence. -/
def gameTokens (text : String) : List Tok :=
  gameScanGo text.data (text.data.length + 1) 0

/-- Source `GAME_RE.search`: the first match only. -/
def searchGame (text : String) : Option Tok := (gameTokens text).head?

/-- Canonical game label: `next((g for g in GAMES if g.lower() == raw.lower()), raw)`. -/
def canonGame (raw : String) : String :=
  ((GAMES.find? (fun g => String.mk (g.data.map lowerChar) = String.mk (raw.data.map lowerChar))).getD raw)

-- ── Claim C8: fmt_time ∘ to_seconds round trip ────────────────────────────────

/-- C8: for non-negative integers m, s with s < 60,
`format_duration(to_seconds(m, s))` is m unpadded, a colon, and s zero-padded
to two digits; the round-trip reproduces the zero-padded seconds exactly. -/
theorem fmt_time_to_seconds_roundtrip (m s : Nat) (h : s < 60) :
    fmt_time (to_seconds m s) = toString m ++ ":" ++ pad2 s := by
  unfold fmt_time to_seconds
  have h1 : (m * 60 + s) / 60 = m := by omega
  have h2 : (m * 60 + s) % 60 = s := by omega
  rw [h1, h2]

/-- Witness for C8 at m = 2, s = 5: `format_duration(125) = "2:05"`. -/
theorem fmt_time_to_seconds_roundtrip_witness :
    5 < 60 ∧ fmt_time (to_seconds 2 5) = "2:05" :=
  ⟨by decide, by rw [fmt_time_to_seconds_roundtrip 2 5 (by decide)]; decide⟩

-- ── Speaker markers and parse_conversation ────────────────────────────────────

/-- Is `p` a line start of `t` (the `^` of a MULTILINE pattern)? -/
def lineStartB (t : List Char) (p : Nat) : Bool :=
  p == 0 || t[p-1]? == some '\n'

/-- Does the marker pattern `^<name>\s` (IGNORECASE, MULTILINE) match at
offset `p` of `t`?  Exactly: `p` is a line start, `name` is a case-folded
prefix of the text at `p`, and the next character is whitespace. -/
def markerAtB (t n : List Char) (p : Nat) : Bool :=
  lineStartB t p && ciStartsWith n (t.drop p) &&
    (match t[p + n.length]? with
     | some c => isWS c
     | none => false)

/-- The `finditer` scan for one speaker name: positions are tried left to
right; a match consumes `name.length + 1` characters (non-overlapping).
`fuel` is supplied as `t.length + 1` by `markerScan`. -/
def markerScanGo (t n : List Char) : Nat → Nat → List Nat
  | 0, _ => []
  | fuel + 1, p =>
    if p < t.length then
      if markerAtB t n p then p :: markerScanGo t n fuel (p + n.length + 1)
      else markerScanGo t n fuel (p + 1)
    else []

/-- All marker offsets for one name. -/
def markerScan (t n : List Char) : List Nat := markerScanGo t n (t.length + 1) 0

/-- Markers for one participant name: `(m.start(), name)` pairs. -/
def markersFor (text name : String) : List (Nat × String) :=
  (markerScan text.data name.data).map (fun p => (p, name))

/-- Python `<` on `(int, str)` tuples: position first, then code-point
lexicographic string order. -/
def tupLe (x y : Nat × String) : Bool :=
  if x.1 < y.1 then true
  else if y.1 < x.1 then false
  else !(strLtChars y.2.data x.2.data)

/-- Insertion step of an insertion sort with a boolean order. -/
def insertBy (le : α → α → Bool) (a : α) : List α → List α
  | [] => [a]
  | b :: bs => if le a b then a :: b :: bs else b :: insertBy le a bs

/-- Insertion sort with a boolean order (models Python `list.sort()`). -/
def sortBy (le : α → α → Bool) : List α → List α
  | [] => []
  | a :: as' => insertBy le a (sortBy le as')

/-- Source `speaker_markers` after collection and `.sort()`: both names'
markers, sorted by `(position, name)`. -/
def convMarkers (text my_name contact_name : String) : List (Nat × String) :=
  sortBy tupLe (markersFor text my_name ++ markersFor text contact_name)

/-- The marker selected by the source's reversed scan
(`for sp_pos, sp_name in reversed(speaker_markers): if sp_pos < pos: ... break`):
the last list element whose offset is strictly below `pos`. -/
def lastMarkerBefore (ms : List (Nat × String)) (pos : Nat) : Option (Nat × String) :=
  ms.reverse.find? (fun m => decide (m.1 < pos))

/-- The `sender` variable after the loop (`None` if no marker qualifies). -/
def findSender (ms : List (Nat × String)) (pos : Nat) : Option String :=
  (lastMarkerBefore ms pos).map (fun m => m.2)

/-- The record built for an attributed token in `parse_conversation`. -/
def tokRecord (s : String) (t : Tok) : GameResult :=
  { sender := s, date := none, game := canonGame t.raw,
    puzzle_num := t.puzzle, time_sec := to_seconds t.mins t.secs }

/-- Source `parse_conversation`: markers from both names sorted by
`(position, name)`, then each `GAME_RE` token attributed via the reversed
scan; `if sender:` is Python truthiness, so both `None` and the empty
string yield no record.  Returns `(records, names_detected)`. -/
def parse_conversation (text my_name contact_name : String) :
    List GameResult × Bool :=
  let ms := convMarkers text my_name contact_name
  ((gameTokens text).filterMap (fun t =>
      match findSender ms t.pos with
      | some s => if s = "" then none else some (tokRecord s t)
      | none => none),
   !ms.isEmpty)

-- ── parse_messages ────────────────────────────────────────────────────────────

/-- Source `parse_messages`, with the external date parser as parameter `dp`
(`none` models the `except` branch, which sets `date = None`).  Each row
contributes at most one record, from the first `GAME_RE` match of its
content; rows without a match contribute nothing. -/
def parse_messages (dp : String → Option String) (rows : List Row) : List GameResult :=
  rows.filterMap (fun row =>
    (searchGame row.content).map (fun t =>
      { sender := pyStrip row.sender, date := dp row.date_s,
        game := canonGame t.raw, puzzle_num := t.puzzle,
        time_sec := to_seconds t.mins t.secs }))

-- ── merge_results ─────────────────────────────────────────────────────────────

/-- The deduplication key of `drop_duplicates(subset=["sender","game","puzzle_num"])`. -/
def mergeKey (r : GameResult) : String × String × Nat := (r.sender, r.game, r.puzzle_num)

/-- Comparison used by `sort_values("time_sec")` (ascending). -/
def timeLe (a b : GameResult) : Bool := a.time_sec ≤ b.time_sec

/-- Source `drop_duplicates(..., keep="first")`: keep the first row of each
key, scanning in order; `seen` is the set of keys already kept. -/
def dedupByKey : List GameResult → List (String × String × Nat) → List GameResult
  | [], _ => []
  | r :: rs, seen =>
    if mergeKey r ∈ seen then dedupByKey rs seen
    else r :: dedupByKey rs (mergeKey r :: seen)

/-- Source `merge_results`: short-circuit when the manual set is empty, else
concatenate, sort ascending by `time_sec` and keep the first row per key.
The embedding sorts with a stable insertion sort; pandas' default sort
pins only the ascending order by `time_sec`, and every property proved
below about the general path is independent of the order among ties. -/
def merge_results (csv_df manual_df : List GameResult) : List GameResult :=
  if manual_df.isEmpty then csv_df
  else dedupByKey (sortBy timeLe (csv_df ++ manual_df)) []

-- ── compute_scores ────────────────────────────────────────────────────────────

/-- Rows of one sender for one game (`results[sender == who][game == g]`). -/
def senderGameRows (rs : List GameResult) (who g : String) : List GameResult :=
  rs.filter (fun r => r.sender == who && r.game == g)

/-- The puzzle numbers of one sender for one game (the group keys). -/
def puzzlesOf (rs : List GameResult) (who g : String) : List Nat :=
  (senderGameRows rs who g).map (fun r => r.puzzle_num)

/-- The grouped minimum `groupby("puzzle_num")["time_sec"].min()` at key `p`. -/
def minTimeOpt (rs : List GameResult) (who g : String) (p : Nat) : Option Nat :=
  listMin (((senderGameRows rs who g).filter (fun r => r.puzzle_num == p)).map
    (fun r => r.time_sec))

/-- Lookup `int(series[p])`; the `0` default is never reached for shared
puzzle numbers (the group is non-empty there). -/
def minTime (rs : List GameResult) (who g : String) (p : Nat) : Nat :=
  (minTimeOpt rs who g p).getD 0

/-- Insert into a strictly increasing list, dropping duplicates. -/
def insSorted (a : Nat) : List Nat → List Nat
  | [] => [a]
  | b :: bs => if a < b then a :: b :: bs else if a = b then b :: bs else b :: insSorted a bs

/-- Ascending duplicate-free enumeration of a list of naturals (models
`sorted(...)` over an index of unique keys). -/
def sortedDedup (l : List Nat) : List Nat := l.foldr insSorted []

/-- Source `sorted(my_g.index.intersection(co_g.index))`: the shared puzzle
numbers of the two participants for one game, ascending. -/
def sharedPuzzles (rs : List GameResult) (me co g : String) : List Nat :=
  sortedDedup ((puzzlesOf rs me g).filter (fun p => decide (p ∈ puzzlesOf rs co g)))

/-- Loop body of `compute_scores`: compare the two grouped minima at one
shared puzzle, increment the matching counter, append the duel. -/
def duelStep (mtf ctf : Nat → Nat) (acc : GameScore) (p : Nat) : GameScore :=
  let mt := mtf p
  let ct := ctf p
  if mt < ct then
    { acc with me := acc.me + 1, duels := acc.duels ++ [⟨p, mt, ct, "me"⟩] }
  else if ct < mt then
    { acc with contact := acc.contact + 1, duels := acc.duels ++ [⟨p, mt, ct, "contact"⟩] }
  else
    { acc with tie := acc.tie + 1, duels := acc.duels ++ [⟨p, mt, ct, "tie"⟩] }

/-- Per-game scoring loop of `compute_scores`. -/
def scoreGame (rs : List GameResult) (me co g : String) : GameScore :=
  (sharedPuzzles rs me co g).foldl
    (duelStep (minTime rs me g) (minTime rs co g)) ⟨0, 0, 0, []⟩

/-- Source `compute_scores`: one `GameScore` per fixed game. -/
def compute_scores (rs : List GameResult) (my_name contact : String) :
    List (String × GameScore) :=
  GAMES.map (fun g => (g, scoreGame rs my_name contact g))

-- ── detect_speakers ───────────────────────────────────────────────────────────

/-- The `$` of a MULTILINE pattern: end of text or just before a newline. -/
def dollarAt (t : List Char) (q : Nat) : Bool :=
  q == t.length || t[q]? == some '\n'

/-- Length of the whitespace run starting at offset `q`. -/
def wsRunAt (t : List Char) (q : Nat) : Nat := countWhile isWS (t.drop q)

/-- Greedy `\s*$` at offset `q`: the largest `r` within the whitespace run
such that `$` holds at `q + r`; tried from `r` downwards (backtracking). -/
def tailWsGo (t : List Char) (q : Nat) : Nat → Option Nat
  | 0 => if dollarAt t q then some 0 else none
  | r + 1 => if dollarAt t (q + r + 1) then some (r + 1) else tailWsGo t q r

/-- Match `\s*$` at offset `q`, returning the consumed length. -/
def tailWsAt (t : List Char) (q : Nat) : Option Nat := tailWsGo t q (wsRunAt t q)

/-- Is the character at offset `q` an ASCII digit? -/
def digitAt (t : List Char) (q : Nat) : Bool :=
  match t[q]? with
  | some c => isDigitC c
  | none => false

/-- Match `\d{1,2}:\d{2}\s*$` at offset `q` (greedy: two leading digits are
preferred over one), returning the consumed length. -/
def timeTailAt (t : List Char) (q : Nat) : Option Nat :=
  match (if digitAt t q && digitAt t (q+1) && t[q+2]? == some ':' &&
            digitAt t (q+3) && digitAt t (q+4)
         then tailWsAt t (q+5) else none) with
  | some r => some (5 + r)
  | none =>
    if digitAt t q && t[q+1]? == some ':' && digitAt t (q+2) && digitAt t (q+3)
    then (tailWsAt t (q+4)).map (fun r => 4 + r)
    else none

/-- Greedy `\s{2,}` followed by the time tail, descending from separator
length `j` (note `\s` also matches newlines, so the separator may cross a
line break). -/
def sepTimeGo (t : List Char) (q : Nat) : Nat → Option Nat
  | 0 => none
  | j + 1 =>
    if j + 1 ≥ 2 then
      match timeTailAt t (q + (j+1)) with
      | some m => some ((j+1) + m)
      | none => sepTimeGo t q j
    else none

/-- Match `\s{2,}\d{1,2}:\d{2}\s*$` at offset `q`, returning the length. -/
def sepTimeAt (t : List Char) (q : Nat) : Option Nat :=
  sepTimeGo t q (wsRunAt t q)

/-- Length of the run of non-newline characters at offset `q` (the maximal
extent of `.+` without DOTALL). -/
def nonNlRun (t : List Char) (q : Nat) : Nat :=
  countWhile (fun c => !(c == '\n')) (t.drop q)

/-- Lazy `(.+?)` at line start `p`: try capture lengths `k, k+1, ...` for
`rem` attempts, returning the first `(k, total match length)` whose
continuation matches. -/
def tryMatchGo (t : List Char) (p : Nat) : Nat → Nat → Option (Nat × Nat)
  | 0, _ => none
  | rem + 1, k =>
    match sepTimeAt t (p + k) with
    | some m => some (k, k + m)
    | none => tryMatchGo t p rem (k + 1)

/-- One attempt of `^(.+?)\s{2,}\d{1,2}:\d{2}\s*$` at offset `p`: the lazy
group grows from 1 up to the non-newline run; returns the group-1 slice and
the total match length. -/
def tryMatchAt (t : List Char) (p : Nat) : Option (String × Nat) :=
  (tryMatchGo t p (nonNlRun t p) 1).map
    (fun km => (String.mk ((t.drop p).take km.1), km.2))

/-- The `finditer` scan of the header pattern: each position in turn, `^`
restricting starts to line starts, skipping past each match. -/
def spkScanGo (t : List Char) : Nat → Nat → List String
  | 0, _ => []
  | fuel + 1, p =>
    if p < t.length then
      if lineStartB t p then
        match tryMatchAt t p with
        | some gtot => gtot.1 :: spkScanGo t fuel (p + gtot.2)
        | none => spkScanGo t fuel (p + 1)
      else spkScanGo t fuel (p + 1)
    else []

/-- All group-1 captures of the header pattern, in order of occurrence. -/
def speakerMatches (text : String) : List String :=
  spkScanGo text.data (text.data.length + 1) 0

/-- Loop of `detect_speakers`: `seen` set plus `names` list, appending each
stripped capture not seen before. -/
def detectLoop : List String → List String × List String → List String × List String
  | [], acc => acc
  | nm :: rest, (seen, names) =>
    let n := pyStrip nm
    if n ∈ seen then detectLoop rest (seen, names)
    else detectLoop rest (n :: seen, names ++ [n])

/-- Source `detect_speakers`: scan `^(.+?)\s{2,}\d{1,2}:\d{2}\s*$` in
MULTILINE mode, strip each capture, and keep first occurrences in order. -/
def detect_speakers (text : String) : List String :=
  (detectLoop (speakerMatches text) ([], [])).2

-- ── Generic lemmas about the insertion sort ───────────────────────────────────

theorem mem_insertBy (le : α → α → Bool) (a x : α) (l : List α) :
    x ∈ insertBy le a l ↔ x = a ∨ x ∈ l := by
  induction l with
  | nil => simp [insertBy]
  | cons b bs ih =>
    by_cases h : le a b = true
    · simp [insertBy, h]
    · simp only [insertBy, if_neg h, List.mem_cons, ih]
      tauto

theorem mem_sortBy (le : α → α → Bool) (x : α) (l : List α) :
    x ∈ sortBy le l ↔ x ∈ l := by
  induction l with
  | nil => simp [sortBy]
  | cons b bs ih => simp [sortBy, mem_insertBy, ih]

theorem pairwise_insertBy {R : α → α → Prop} (le : α → α → Bool)
    (hle : ∀ x y, le x y = true → R x y)
    (hnle : ∀ x y, le x y = false → R y x)
    (htr : ∀ x y z, R x y → R y z → R x z)
    (a : α) (l : List α) (h : l.Pairwise R) : (insertBy le a l).Pairwise R := by
  induction l with
  | nil => simp [insertBy]
  | cons b bs ih =>
    rcases List.pairwise_cons.mp h with ⟨hb, hbs⟩
    by_cases hab : le a b = true
    · rw [show insertBy le a (b :: bs) = a :: b :: bs by simp [insertBy, hab]]
      refine List.pairwise_cons.mpr ⟨?_, h⟩
      intro x hx
      rcases List.mem_cons.mp hx with rfl | hx
      · exact hle _ _ hab
      · exact htr _ _ _ (hle _ _ hab) (hb x hx)
    · rw [show insertBy le a (b :: bs) = b :: insertBy le a bs by simp [insertBy, hab]]
      refine List.pairwise_cons.mpr ⟨?_, ih hbs⟩
      intro x hx
      rcases (mem_insertBy le a x bs).mp hx with rfl | hx
      · exact hnle _ _ (Bool.eq_false_iff.mpr hab)
      · exact hb x hx

theorem pairwise_sortBy {R : α → α → Prop} (le : α → α → Bool)
    (hle : ∀ x y, le x y = true → R x y)
    (hnle : ∀ x y, le x y = false → R y x)
    (htr : ∀ x y z, R x y → R y z → R x z)
    (l : List α) : (sortBy le l).Pairwise R := by
  induction l with
  | nil => exact List.Pairwise.nil
  | cons b bs ih => exact pairwise_insertBy le hle hnle htr b _ ih

-- ── Lemmas about dedupByKey ───────────────────────────────────────────────────

theorem dedupByKey_subset (l : List GameResult) (seen : List (String × String × Nat)) :
    ∀ s ∈ dedupByKey l seen, s ∈ l := by
  induction l generalizing seen with
  | nil => simp [dedupByKey]
  | cons r rs ih =>
    intro s hs
    by_cases h : mergeKey r ∈ seen
    · simp only [dedupByKey, if_pos h] at hs
      exact List.mem_cons_of_mem _ (ih _ s hs)
    · simp only [dedupByKey, if_neg h, List.mem_cons] at hs
      rcases hs with rfl | hs
      · exact List.mem_cons_self _ _
      · exact List.mem_cons_of_mem _ (ih _ s hs)

theorem dedupByKey_not_seen (l : List GameResult) (seen : List (String × String × Nat)) :
    ∀ s ∈ dedupByKey l seen, mergeKey s ∉ seen := by
  induction l generalizing seen with
  | nil => simp [dedupByKey]
  | cons r rs ih =>
    intro s hs
    by_cases h : mergeKey r ∈ seen
    · simp only [dedupByKey, if_pos h] at hs
      exact ih _ s hs
    · simp only [dedupByKey, if_neg h, List.mem_cons] at hs
      rcases hs with rfl | hs
      · exact h
      · intro hcon
        exact (ih _ s hs) (List.mem_cons_of_mem _ hcon)

theorem dedupByKey_pairwise (l : List GameResult) (seen : List (String × String × Nat)) :
    (dedupByKey l seen).Pairwise (fun a b => mergeKey a ≠ mergeKey b) := by
  induction l generalizing seen with
  | nil => exact List.Pairwise.nil
  | cons r rs ih =>
    by_cases h : mergeKey r ∈ seen
    · simpa only [dedupByKey, if_pos h] using ih seen
    · simp only [dedupByKey, if_neg h]
      refine List.pairwise_cons.mpr ⟨?_, ih _⟩
      intro s hs heq
      exact (dedupByKey_not_seen rs _ s hs) (heq ▸ List.mem_cons_self _ _)

theorem dedupByKey_min (l : List GameResult) (seen : List (String × String × Nat))
    (hsorted : l.Pairwise (fun a b => a.time_sec ≤ b.time_sec)) :
    ∀ r ∈ l, mergeKey r ∉ seen →
      ∃ s ∈ dedupByKey l seen, mergeKey s = mergeKey r ∧ s ∈ l ∧
        (∀ x ∈ l, mergeKey x = mergeKey r → s.time_sec ≤ x.time_sec) := by
  induction l generalizing seen with
  | nil => simp
  | cons a as ih =>
    rcases List.pairwise_cons.mp hsorted with ⟨ha, has⟩
    intro r hr hseen
    by_cases hk : mergeKey a = mergeKey r
    · by_cases hmem : mergeKey a ∈ seen
      · exact absurd (hk ▸ hseen) (by simp [hmem])
      · refine ⟨a, ?_, hk, List.mem_cons_self _ _, ?_⟩
        · simp only [dedupByKey, if_neg hmem]
          exact List.mem_cons_self _ _
        · intro x hx _
          rcases List.mem_cons.mp hx with rfl | hx
          · exact le_refl _
          · exact ha x hx
    · have hr' : r ∈ as := by
        rcases List.mem_cons.mp hr with rfl | hr'
        · exact absurd rfl hk
        · exact hr'
      by_cases hmem : mergeKey a ∈ seen
      · rcases ih seen has r hr' hseen with ⟨s, hs, hks, hsl, hmin⟩
        refine ⟨s, ?_, hks, List.mem_cons_of_mem _ hsl, ?_⟩
        · simpa only [dedupByKey, if_pos hmem] using hs
        · intro x hx hkx
          rcases List.mem_cons.mp hx with rfl | hx
          · exact absurd hkx hk
          · exact hmin x hx hkx
      · have hseen' : mergeKey r ∉ mergeKey a :: seen := by
          intro hcon
          rcases List.mem_cons.mp hcon with heq | hcon
          · exact hk heq.symm
          · exact hseen hcon
        rcases ih (mergeKey a :: seen) has r hr' hseen' with ⟨s, hs, hks, hsl, hmin⟩
        refine ⟨s, ?_, hks, List.mem_cons_of_mem _ hsl, ?_⟩
        · simp only [dedupByKey, if_neg hmem]
          exact List.mem_cons_of_mem _ hs
        · intro x hx hkx
          rcases List.mem_cons.mp hx with rfl | hx
          · exact absurd hkx hk
          · exact hmin x hx hkx

theorem sortBy_timeLe_pairwise (l : List GameResult) :
    (sortBy timeLe l).Pairwise (fun a b => a.time_sec ≤ b.time_sec) := by
  refine pairwise_sortBy timeLe ?_ ?_ ?_ l
  · intro x y h
    simpa [timeLe] using h
  · intro x y h
    simp only [timeLe, decide_eq_false_iff_not, not_le] at h
    exact le_of_lt h
  · intro x y z h1 h2
    exact le_trans h1 h2

-- ── Claim C1: invariant of the merged result set ──────────────────────────────

/-- C1: when the secondary set is non-empty, the merge output has at most one
record per `(sender, game, puzzle_num)` key, every output record comes from
the concatenated input, and for every key present in the input the surviving
record's `time_sec` is realized in the input and is a lower bound of all
input times of that key (hence equals their minimum). -/
theorem merge_results_invariant (csv_df manual_df : List GameResult)
    (h : manual_df ≠ []) :
    ((merge_results csv_df manual_df).Pairwise (fun a b => mergeKey a ≠ mergeKey b))
    ∧ (∀ s ∈ merge_results csv_df manual_df, s ∈ csv_df ++ manual_df)
    ∧ ∀ r ∈ csv_df ++ manual_df, ∃ s ∈ merge_results csv_df manual_df,
        mergeKey s = mergeKey r
        ∧ (∃ r0 ∈ csv_df ++ manual_df, mergeKey r0 = mergeKey r ∧ r0.time_sec = s.time_sec)
        ∧ (∀ x ∈ csv_df ++ manual_df, mergeKey x = mergeKey r → s.time_sec ≤ x.time_sec) := by
  have hne : manual_df.isEmpty = false := by
    cases manual_df with
    | nil => exact absurd rfl h
    | cons a as => rfl
  have hme : merge_results csv_df manual_df
      = dedupByKey (sortBy timeLe (csv_df ++ manual_df)) [] := by
    simp [merge_results, hne]
  refine ⟨?_, ?_, ?_⟩
  · rw [hme]
    exact dedupByKey_pairwise _ _
  · intro s hs
    rw [hme] at hs
    exact (mem_sortBy timeLe s _).mp (dedupByKey_subset _ _ s hs)
  · intro r hr
    have hr' : r ∈ sortBy timeLe (csv_df ++ manual_df) := (mem_sortBy _ _ _).mpr hr
    rcases dedupByKey_min _ [] (sortBy_timeLe_pairwise _) r hr' (by simp)
      with ⟨s, hs, hks, hsl, hmin⟩
    refine ⟨s, by rw [hme]; exact hs, hks, ?_, ?_⟩
    · exact ⟨s, (mem_sortBy _ _ _).mp hsl, hks, rfl⟩
    · intro x hx hkx
      exact hmin x ((mem_sortBy _ _ _).mpr hx) hkx

/-- Concrete input for the C1 witness: one CSV record and one manual record
sharing a key, with different times. -/
def c1csv : List GameResult := [⟨"Ana", none, "Queens", 12, 120⟩]

/-- Concrete manual set for the C1 witness. -/
def c1man : List GameResult := [⟨"Ana", none, "Queens", 12, 110⟩]

/-- Witness for C1 at a concrete merge of two records with a shared key. -/
theorem merge_results_invariant_witness :
    c1man ≠ [] ∧
    (((merge_results c1csv c1man).Pairwise (fun a b => mergeKey a ≠ mergeKey b))
      ∧ (∀ s ∈ merge_results c1csv c1man, s ∈ c1csv ++ c1man)
      ∧ ∀ r ∈ c1csv ++ c1man, ∃ s ∈ merge_results c1csv c1man,
          mergeKey s = mergeKey r
          ∧ (∃ r0 ∈ c1csv ++ c1man, mergeKey r0 = mergeKey r ∧ r0.time_sec = s.time_sec)
          ∧ (∀ x ∈ c1csv ++ c1man, mergeKey x = mergeKey r → s.time_sec ≤ x.time_sec)) :=
  ⟨by decide, merge_results_invariant c1csv c1man (by decide)⟩

-- ── Lemmas about the sorted marker list and the reversed scan ────────────────

theorem convMarkers_sorted (text a b : String) :
    (convMarkers text a b).Pairwise (fun x y => x.1 ≤ y.1) := by
  refine pairwise_sortBy tupLe ?_ ?_ ?_ _
  · intro x y h
    by_cases h1 : x.1 < y.1
    · omega
    · by_cases h2 : y.1 < x.1
      · simp [tupLe, h1, h2] at h
      · omega
  · intro x y h
    by_cases h1 : x.1 < y.1
    · simp [tupLe, h1] at h
    · omega
  · intro x y z h1 h2
    omega

theorem find_lt_spec (l : List (Nat × String)) (pos : Nat)
    (h : l.Pairwise (fun x y => y.1 ≤ x.1)) :
    (∀ m, l.find? (fun m => decide (m.1 < pos)) = some m →
        m ∈ l ∧ m.1 < pos ∧ ∀ x ∈ l, x.1 < pos → x.1 ≤ m.1)
    ∧ (l.find? (fun m => decide (m.1 < pos)) = none → ∀ x ∈ l, ¬ x.1 < pos) := by
  constructor
  · induction l with
    | nil => intro m hm; simp [List.find?] at hm
    | cons a as ih =>
      rcases List.pairwise_cons.mp h with ⟨ha, has⟩
      intro m hm
      by_cases hp : a.1 < pos
      · rw [List.find?_cons_of_pos _ (by simpa using hp)] at hm
        cases hm
        refine ⟨List.mem_cons_self _ _, hp, ?_⟩
        intro x hx _
        rcases List.mem_cons.mp hx with rfl | hx
        · exact le_refl _
        · exact ha x hx
      · rw [List.find?_cons_of_neg _ (by simpa using hp)] at hm
        rcases ih has m hm with ⟨hmem, hlt, hmax⟩
        refine ⟨List.mem_cons_of_mem _ hmem, hlt, ?_⟩
        intro x hx hxlt
        rcases List.mem_cons.mp hx with rfl | hx
        · exact absurd hxlt hp
        · exact hmax x hx hxlt
  · intro hn x hx hlt
    have := List.find?_eq_none.mp hn x hx
    simp [hlt] at this

theorem lastMarkerBefore_spec (ms : List (Nat × String)) (pos : Nat)
    (hs : ms.Pairwise (fun x y => x.1 ≤ y.1)) :
    (∀ m, lastMarkerBefore ms pos = some m →
        m ∈ ms ∧ m.1 < pos ∧ ∀ x ∈ ms, x.1 < pos → x.1 ≤ m.1)
    ∧ (lastMarkerBefore ms pos = none → ∀ x ∈ ms, ¬ x.1 < pos) := by
  have hrev : ms.reverse.Pairwise (fun x y => y.1 ≤ x.1) :=
    List.pairwise_reverse.mpr hs
  rcases find_lt_spec ms.reverse pos hrev with ⟨hsome, hnone⟩
  constructor
  · intro m hm
    rcases hsome m hm with ⟨hmem, hlt, hmax⟩
    refine ⟨List.mem_reverse.mp hmem, hlt, ?_⟩
    intro x hx
    exact hmax x (List.mem_reverse.mpr hx)
  · intro hn x hx
    exact hnone hn x (List.mem_reverse.mpr hx)

-- ── Claim C2 (amended): transcript attribution ────────────────────────────────

/-- C2 (amended): each token occurrence is attributed via the last marker
whose offset is strictly below the token's match start — the record list is
exactly the tokens mapped through that selection, with the proviso that a
marker carrying an empty participant name yields no record (Python
truthiness of `if sender:`); the selected marker is a member of the marker
list, lies strictly before the token, and has maximal offset among markers
strictly before it; when no marker lies strictly before, no record is
produced; and with markers at offsets 0 and 100 for speakers A and B, a
token at offset 150 selects B. -/
theorem parse_conversation_attribution (text my_name contact_name : String) :
    ((parse_conversation text my_name contact_name).1 =
      (gameTokens text).filterMap (fun t =>
        (lastMarkerBefore (convMarkers text my_name contact_name) t.pos).bind
          (fun m => if m.2 = "" then none else some (tokRecord m.2 t))))
    ∧ (∀ pos m, lastMarkerBefore (convMarkers text my_name contact_name) pos = some m →
        m ∈ convMarkers text my_name contact_name ∧ m.1 < pos ∧
        ∀ x ∈ convMarkers text my_name contact_name, x.1 < pos → x.1 ≤ m.1)
    ∧ (∀ pos, lastMarkerBefore (convMarkers text my_name contact_name) pos = none →
        ∀ x ∈ convMarkers text my_name contact_name, ¬ x.1 < pos)
    ∧ lastMarkerBefore [(0, "A"), (100, "B")] 150 = some (100, "B") := by
  refine ⟨?_, ?_, ?_, by decide⟩
  · simp only [parse_conversation]
    apply List.filterMap_congr
    intro t _
    unfold findSender
    cases lastMarkerBefore (convMarkers text my_name contact_name) t.pos with
    | none => rfl
    | some m => rfl
  · intro pos m hm
    exact (lastMarkerBefore_spec _ pos (convMarkers_sorted text my_name contact_name)).1 m hm
  · intro pos hn
    exact (lastMarkerBefore_spec _ pos (convMarkers_sorted text my_name contact_name)).2 hn

/-- Concrete transcript for the C2 counterexample: the only marker strictly
before the token belongs to the empty participant name. -/
def c2txt : String := " x\nTango nº 1 | 0:30"

/-- Counterexample to C2 as stated: with participant names `""` and `"B"`,
the text has a token at offset 3 and its last strictly-preceding marker is
the empty-name marker at offset 0, yet no record at all is emitted — the
claim demands a record attributed to that marker's speaker. -/
theorem parse_conversation_attribution_cex :
    (parse_conversation c2txt "" "B").1 = []
    ∧ (gameTokens c2txt).map (fun t => t.pos) = [3]
    ∧ lastMarkerBefore (convMarkers c2txt "" "B") 3 = some (0, "") := by
  decide

/-- Witness for C2 on a concrete conversation: the inner characterization is
applied to the marker selected for the token at offset 11. -/
theorem parse_conversation_attribution_witness :
    lastMarkerBefore (convMarkers "Ana   8:41\nTango n.º 5 | 1:02" "Ana" "Luis") 11
      = some (0, "Ana")
    ∧ ((0, "Ana") ∈ convMarkers "Ana   8:41\nTango n.º 5 | 1:02" "Ana" "Luis"
        ∧ 0 < 11 ∧
        ∀ x ∈ convMarkers "Ana   8:41\nTango n.º 5 | 1:02" "Ana" "Luis",
          x.1 < 11 → x.1 ≤ 0) :=
  ⟨by decide,
   (parse_conversation_attribution "Ana   8:41\nTango n.º 5 | 1:02" "Ana" "Luis").2.1
     11 (0, "Ana") (by decide)⟩

-- ── Characterization of marker discovery (claim C6) ──────────────────────────

theorem ciStartsWith_elem (n : List Char) :
    ∀ (s : List Char), ciStartsWith n s = true →
      ∀ i, i < n.length →
        ∃ c c2, n[i]? = some c ∧ s[i]? = some c2 ∧ lowerChar c = lowerChar c2 := by
  induction n with
  | nil =>
    intro s _ i hi
    simp at hi
  | cons p ps ih =>
    intro s h i hi
    cases s with
    | nil => simp [ciStartsWith] at h
    | cons c cs =>
      simp only [ciStartsWith, Bool.and_eq_true, decide_eq_true_eq] at h
      cases i with
      | zero => exact ⟨p, c, by simp, by simp, h.1⟩
      | succ j =>
        rcases ih cs h.2 j (by simpa using hi) with ⟨d, d2, h1, h2, h3⟩
        exact ⟨d, d2, by simpa using h1, by simpa using h2, h3⟩

theorem markerAtB_parts (t n : List Char) (q : Nat) (h : markerAtB t n q = true) :
    lineStartB t q = true ∧ ciStartsWith n (t.drop q) = true ∧ q < t.length := by
  unfold markerAtB at h
  simp only [Bool.and_eq_true] at h
  obtain ⟨⟨h1, h2⟩, h3⟩ := h
  refine ⟨h1, h2, ?_⟩
  rcases he : t[q + n.length]? with _ | c
  · rw [he] at h3
    simp at h3
  · have := (List.getElem?_eq_some.mp he).1
    omega

theorem lineStartB_newline (t : List Char) (q : Nat) (h : lineStartB t q = true)
    (hq : q ≠ 0) : t[q-1]? = some '\n' := by
  unfold lineStartB at h
  simp only [Bool.or_eq_true] at h
  rcases h with h0 | h1
  · exact absurd (by simpa using h0) hq
  · exact beq_iff_eq.mp h1

theorem markerAtB_newline_mem (t n : List Char) (q i : Nat)
    (h : markerAtB t n q = true) (hi : i < n.length) (hnl : t[q+i]? = some '\n') :
    '\n' ∈ n.map lowerChar := by
  rcases markerAtB_parts t n q h with ⟨_, hci, _⟩
  rcases ciStartsWith_elem n (t.drop q) hci i hi with ⟨c, c2, hc, hc2, heq⟩
  rw [List.getElem?_drop, hnl] at hc2
  have hc2e : c2 = '\n' := by
    cases hc2
    rfl
  have hlc : lowerChar c = '\n' := by
    rw [heq, hc2e]
    decide
  have hcmem : c ∈ n := by
    rcases List.getElem?_eq_some.mp hc with ⟨hlt, he⟩
    exact he ▸ List.getElem_mem hlt
  exact hlc ▸ List.mem_map_of_mem lowerChar hcmem

theorem markerScanGo_mem_ge (t n : List Char) :
    ∀ fuel p q, q ∈ markerScanGo t n fuel p → p ≤ q ∧ markerAtB t n q = true := by
  intro fuel
  induction fuel with
  | zero =>
    intro p q hq
    simp [markerScanGo] at hq
  | succ f ih =>
    intro p q hq
    by_cases hp : p < t.length
    · by_cases hm : markerAtB t n p = true
      · simp only [markerScanGo, if_pos hp, if_pos hm, List.mem_cons] at hq
        rcases hq with rfl | hq
        · exact ⟨le_refl _, hm⟩
        · rcases ih _ q hq with ⟨hge, hq'⟩
          exact ⟨by omega, hq'⟩
      · simp only [markerScanGo, if_pos hp, if_neg hm] at hq
        rcases ih _ q hq with ⟨hge, hq'⟩
        exact ⟨by omega, hq'⟩
    · simp [markerScanGo, if_neg hp] at hq

theorem markerScanGo_mem_of (t n : List Char) (h : '\n' ∉ n.map lowerChar) :
    ∀ fuel p q, markerAtB t n q = true → p ≤ q → t.length + 1 ≤ fuel + p →
      q ∈ markerScanGo t n fuel p := by
  intro fuel
  induction fuel with
  | zero =>
    intro p q hq hpq hfuel
    have hqlt := (markerAtB_parts t n q hq).2.2
    exact absurd hfuel (by omega)
  | succ f ih =>
    intro p q hq hpq hfuel
    have hqlt := (markerAtB_parts t n q hq).2.2
    have hplt : p < t.length := by omega
    rcases Nat.eq_or_lt_of_le hpq with rfl | hlt
    · simp only [markerScanGo, if_pos hplt, if_pos hq]
      exact List.mem_cons_self _ _
    · by_cases hm : markerAtB t n p = true
      · have hge : p + n.length + 1 ≤ q := by
          by_contra hcon
          push_neg at hcon
          have hq0 : q ≠ 0 := by omega
          have hnl := lineStartB_newline t q (markerAtB_parts t n q hq).1 hq0
          by_cases hcase : q - 1 < p + n.length
          · have hi : q - 1 - p < n.length := by omega
            have hnl2 : t[p + (q-1-p)]? = some '\n' := by
              rw [show p + (q-1-p) = q-1 by omega]
              exact hnl
            exact h (markerAtB_newline_mem t n p (q-1-p) hm hi hnl2)
          · omega
        simp only [markerScanGo, if_pos hplt, if_pos hm]
        exact List.mem_cons_of_mem _ (ih _ q hq hge (by omega))
      · simp only [markerScanGo, if_pos hplt, if_neg hm]
        exact ih _ q hq (by omega) (by omega)

theorem markerScan_mem (t n : List Char) (h : '\n' ∉ n.map lowerChar) (q : Nat) :
    q ∈ markerScan t n ↔ markerAtB t n q = true := by
  constructor
  · intro hq
    exact (markerScanGo_mem_ge t n _ 0 q hq).2
  · intro hq
    exact markerScanGo_mem_of t n h _ 0 q hq (Nat.zero_le q) (by omega)

/-- C6 (amended): for names free of newline characters, the marker list
contains `(p, nm)` exactly when `nm` is one of the two participant names and
the marker pattern matches at `p`: `p` is a line start, the name is a
case-insensitive prefix of the text there, and the character right after the
name is whitespace.  Hence a line beginning with the longer of two
overlapping names yields a marker for the shorter name exactly when the
shorter name's occurrence at the line start is itself followed by
whitespace (as with "Ana" against a line "Ana Maria  8:41"); when it is
not so followed (as with "Ann" against "Anna …"), no spurious marker
arises. -/
theorem convMarkers_mem (text a b : String)
    (ha : '\n' ∉ a.data.map lowerChar) (hb : '\n' ∉ b.data.map lowerChar)
    (p : Nat) (nm : String) :
    ((p, nm) ∈ convMarkers text a b ↔
      ((nm = a ∨ nm = b) ∧ markerAtB text.data nm.data p = true)) := by
  unfold convMarkers
  rw [mem_sortBy]
  simp only [List.mem_append, markersFor, List.mem_map, Prod.mk.injEq]
  constructor
  · rintro (⟨q, hq, rfl, rfl⟩ | ⟨q, hq, rfl, rfl⟩)
    · exact ⟨Or.inl rfl, (markerScan_mem _ _ ha q).mp hq⟩
    · exact ⟨Or.inr rfl, (markerScan_mem _ _ hb q).mp hq⟩
  · rintro ⟨hab, hm⟩
    rcases hab with rfl | rfl
    · exact Or.inl ⟨p, (markerScan_mem _ _ ha p).mpr hm, rfl, rfl⟩
    · exact Or.inr ⟨p, (markerScan_mem _ _ hb p).mpr hm, rfl, rfl⟩

/-- Counterexample to C6 as stated: the only line of the text begins with
the longer name "Ana Maria", yet marker discovery also yields a marker for
the shorter name "Ana" at the same offset, because "Ana" at the line start
is followed by a whitespace character. -/
theorem convMarkers_spurious_cex :
    ((0 : Nat), "Ana") ∈ convMarkers "Ana Maria  8:41" "Ana Maria" "Ana"
    ∧ ((0 : Nat), "Ana Maria") ∈ convMarkers "Ana Maria  8:41" "Ana Maria" "Ana"
    ∧ ciStartsWith "Ana Maria".data "Ana Maria  8:41".data = true := by
  decide

/-- Witness for C6 on names "Anna" and "Ann": the characterization rules out
a marker for "Ann" at offset 0 of "Anna  8:41" (no whitespace after "Ann"). -/
theorem convMarkers_mem_witness :
    ('\n' ∉ "Anna".data.map lowerChar) ∧ ('\n' ∉ "Ann".data.map lowerChar)
    ∧ (0, "Ann") ∉ convMarkers "Anna  8:41" "Anna" "Ann" := by
  refine ⟨by decide, by decide, ?_⟩
  intro hmem
  have h2 := (convMarkers_mem "Anna  8:41" "Anna" "Ann" (by decide) (by decide)
    0 "Ann").mp hmem
  exact absurd h2.2 (by decide)

-- ── Claim C7 (amended): the puzzle-marker glyphs of the token grammar ────────

/-- C7 (amended): the puzzle marker accepts a bare `#`, or the letter `n`
(optionally followed by a period) followed by the masculine ordinal
indicator U+00BA or the degree sign U+00B0 — and nothing else in that glyph
position: with any other character there, such as the feminine ordinal
indicator, the token is not recognized. -/
theorem puzzle_marker_glyphs :
    (∀ c : Char,
      (matchGameAt ("Tango n." ++ String.singleton c ++ " 5 | 1:02").data).isSome = true
        ↔ (c = 'º' ∨ c = '°'))
    ∧ (matchGameAt "Tango # 5 | 1:02".data).isSome = true
    ∧ (matchGameAt "Tango nº 5 | 1:02".data).isSome = true
    ∧ (matchGameAt "Tango n.ª 5 | 1:02".data).isSome = false := by
  refine ⟨?_, by decide, by decide, by decide⟩
  intro c
  have hdata : ("Tango n." ++ String.singleton c ++ " 5 | 1:02").data
      = 'T' :: 'a' :: 'n' :: 'g' :: 'o' :: ' ' :: 'n' :: '.' ::c:: ' ' :: '5' :: ' ' :: '|' :: ' ' :: '1' :: ':' :: '0' :: '2' :: [] := by
    simp [String.data_append, String.singleton]
  rw [hdata]
  constructor
  · intro hsome
    by_cases h1 : c = 'º'
    · exact Or.inl h1
    · by_cases h2 : c = '°'
      · exact Or.inr h2
      · have ho : isOrdChar c = false := by simp [isOrdChar, h1, h2]
        have hnone : matchGameAt
            ('T' :: 'a' :: 'n' :: 'g' :: 'o' :: ' ' :: 'n' :: '.' ::c:: ' ' :: '5' :: ' ' :: '|' :: ' ' :: '1' :: ':' :: '0' :: '2' :: []) = none := by
          simp +decide [matchGameAt, nameAlt, markerLen, ciStartsWith, countWhile, lowerChar, ho]
        rw [hnone] at hsome
        simp at hsome
  · intro h
    rcases h with rfl | rfl <;> decide

/-- Counterexample to C7 as stated: a token written with the feminine
ordinal indicator, `"Tango n.ª 5 | 1:02"`, is not matched by the grammar —
the scan over the whole text yields no token. -/
theorem puzzle_marker_feminine_cex :
    gameTokens "Tango n.ª 5 | 1:02" = []
    ∧ (gameTokens "Tango n.º 5 | 1:02").length = 1 := by
  decide

/-- Witness for C7: the characterization applied at the masculine ordinal
indicator. -/
theorem puzzle_marker_glyphs_witness :
    (matchGameAt ("Tango n." ++ String.singleton 'º' ++ " 5 | 1:02").data).isSome = true :=
  (puzzle_marker_glyphs.1 'º').mpr (Or.inl rfl)

-- ── Lemmas about listMin ──────────────────────────────────────────────────────

theorem listMin_eq_none (l : List Nat) : listMin l = none ↔ l = [] := by
  cases l with
  | nil => simp [listMin]
  | cons x xs =>
    simp only [listMin]
    cases listMin xs with
    | none => simp
    | some m => simp

theorem listMin_spec (l : List Nat) : ∀ v, listMin l = some v → v ∈ l ∧ ∀ x ∈ l, v ≤ x := by
  induction l with
  | nil => intro v hv; simp [listMin] at hv
  | cons x xs ih =>
    intro v hv
    simp only [listMin] at hv
    rcases hm : listMin xs with _ | m
    · rw [hm] at hv
      cases hv
      have hxs : xs = [] := (listMin_eq_none xs).mp hm
      subst hxs
      exact ⟨List.mem_cons_self _ _, by simp⟩
    · rw [hm] at hv
      cases hv
      rcases ih m hm with ⟨hmem, hmin⟩
      constructor
      · rcases le_total x m with hle | hle
        · simp [min_eq_left hle]
        · rw [min_eq_right hle]
          exact List.mem_cons_of_mem _ hmem
      · intro y hy
        rcases List.mem_cons.mp hy with rfl | hy
        · exact min_le_left _ _
        · exact le_trans (min_le_right _ _) (hmin y hy)

theorem listMin_isSome (l : List Nat) (h : l ≠ []) : ∃ v, listMin l = some v := by
  rcases hm : listMin l with _ | v
  · exact absurd ((listMin_eq_none l).mp hm) h
  · exact ⟨v, rfl⟩

-- ── Lemmas about sortedDedup ──────────────────────────────────────────────────

theorem mem_insSorted (a x : Nat) (l : List Nat) :
    x ∈ insSorted a l ↔ x = a ∨ x ∈ l := by
  induction l with
  | nil => simp [insSorted]
  | cons b bs ih =>
    by_cases h1 : a < b
    · simp [insSorted, h1]
    · by_cases h2 : a = b
      · subst h2
        rw [show insSorted a (a :: bs) = a :: bs by simp [insSorted, h1]]
        simp only [List.mem_cons]
        tauto
      · simp only [insSorted, if_neg h1, if_neg h2, List.mem_cons, ih]
        tauto

theorem pairwise_insSorted (a : Nat) (l : List Nat) (h : l.Pairwise (· < ·)) :
    (insSorted a l).Pairwise (· < ·) := by
  induction l with
  | nil => simp [insSorted]
  | cons b bs ih =>
    rcases List.pairwise_cons.mp h with ⟨hb, hbs⟩
    by_cases h1 : a < b
    · rw [show insSorted a (b :: bs) = a :: b :: bs by simp [insSorted, h1]]
      refine List.pairwise_cons.mpr ⟨?_, h⟩
      intro x hx
      rcases List.mem_cons.mp hx with rfl | hx
      · exact h1
      · exact lt_trans h1 (hb x hx)
    · by_cases h2 : a = b
      · rw [show insSorted a (b :: bs) = b :: bs by simp [insSorted, h1, h2]]
        exact h
      · rw [show insSorted a (b :: bs) = b :: insSorted a bs by simp [insSorted, h1, h2]]
        refine List.pairwise_cons.mpr ⟨?_, ih hbs⟩
        intro x hx
        rcases (mem_insSorted a x bs).mp hx with rfl | hx
        · omega
        · exact hb x hx

theorem mem_sortedDedup (l : List Nat) (x : Nat) : x ∈ sortedDedup l ↔ x ∈ l := by
  induction l with
  | nil => simp [sortedDedup]
  | cons b bs ih =>
    simp only [sortedDedup, List.foldr_cons, List.mem_cons]
    rw [show bs.foldr insSorted [] = sortedDedup bs from rfl] at *
    rw [mem_insSorted, ih]

theorem pairwise_sortedDedup (l : List Nat) : (sortedDedup l).Pairwise (· < ·) := by
  induction l with
  | nil => simp [sortedDedup]
  | cons b bs ih => exact pairwise_insSorted b _ ih

theorem pairwise_lt_eq_of_mem_iff :
    ∀ (l1 l2 : List Nat), l1.Pairwise (· < ·) → l2.Pairwise (· < ·) →
      (∀ x, x ∈ l1 ↔ x ∈ l2) → l1 = l2 := by
  intro l1
  induction l1 with
  | nil =>
    intro l2 _ _ hiff
    cases l2 with
    | nil => rfl
    | cons y ys => exact absurd ((hiff y).mpr (List.mem_cons_self _ _)) (by simp)
  | cons x xs ih =>
    intro l2 h1 h2 hiff
    cases l2 with
    | nil => exact absurd ((hiff x).mp (List.mem_cons_self _ _)) (by simp)
    | cons y ys =>
      rcases List.pairwise_cons.mp h1 with ⟨hx, hxs⟩
      rcases List.pairwise_cons.mp h2 with ⟨hy, hys⟩
      have hxy : x = y := by
        rcases List.mem_cons.mp ((hiff x).mp (List.mem_cons_self _ _)) with h | h
        · exact h
        · rcases List.mem_cons.mp ((hiff y).mpr (List.mem_cons_self _ _)) with h2' | h2'
          · exact h2'.symm
          · have := hy x h
            have := hx y h2'
            omega
      subst hxy
      have htails : ∀ z, z ∈ xs ↔ z ∈ ys := by
        intro z
        constructor
        · intro hz
          rcases List.mem_cons.mp ((hiff z).mp (List.mem_cons_of_mem _ hz)) with rfl | h
          · exact absurd (hx z hz) (lt_irrefl z)
          · exact h
        · intro hz
          rcases List.mem_cons.mp ((hiff z).mpr (List.mem_cons_of_mem _ hz)) with rfl | h
          · exact absurd (hy z hz) (lt_irrefl z)
          · exact h
      rw [ih ys hxs hys htails]

-- ── Characterization of the scoring loop ──────────────────────────────────────

/-- The duel record built in one iteration of the scoring loop. -/
def mkDuel (mtf ctf : Nat → Nat) (p : Nat) : Duel :=
  if mtf p < ctf p then ⟨p, mtf p, ctf p, "me"⟩
  else if ctf p < mtf p then ⟨p, mtf p, ctf p, "contact"⟩
  else ⟨p, mtf p, ctf p, "tie"⟩

theorem mkDuel_puzzle (mtf ctf : Nat → Nat) (p : Nat) :
    (mkDuel mtf ctf p).puzzle_num = p := by
  unfold mkDuel
  split_ifs <;> rfl

theorem mkDuel_fields (mtf ctf : Nat → Nat) (p : Nat) :
    mkDuel mtf ctf p =
      ⟨p, mtf p, ctf p,
        if mtf p < ctf p then "me" else if ctf p < mtf p then "contact" else "tie"⟩ := by
  unfold mkDuel
  split_ifs <;> rfl

theorem foldl_duelStep (mtf ctf : Nat → Nat) :
    ∀ (ps : List Nat) (acc : GameScore),
      ps.foldl (duelStep mtf ctf) acc =
        { me := acc.me +
            ((ps.map (mkDuel mtf ctf)).filter (fun d => d.winner == "me")).length,
          contact := acc.contact +
            ((ps.map (mkDuel mtf ctf)).filter (fun d => d.winner == "contact")).length,
          tie := acc.tie +
            ((ps.map (mkDuel mtf ctf)).filter (fun d => d.winner == "tie")).length,
          duels := acc.duels ++ ps.map (mkDuel mtf ctf) } := by
  intro ps
  induction ps with
  | nil =>
    intro acc
    simp
  | cons p ps ih =>
    intro acc
    rw [List.foldl_cons, ih]
    by_cases h1 : mtf p < ctf p
    · have hd : mkDuel mtf ctf p = ⟨p, mtf p, ctf p, "me"⟩ := by simp [mkDuel, h1]
      simp [duelStep, h1, hd]
      omega
    · by_cases h2 : ctf p < mtf p
      · have hd : mkDuel mtf ctf p = ⟨p, mtf p, ctf p, "contact"⟩ := by
          simp [mkDuel, h1, h2]
        simp [duelStep, h1, h2, hd]
        omega
      · have hd : mkDuel mtf ctf p = ⟨p, mtf p, ctf p, "tie"⟩ := by
          simp [mkDuel, h1, h2]
        simp [duelStep, h1, h2, hd]
        omega

theorem minTimeOpt_isSome (rs : List GameResult) (who g : String) (p : Nat)
    (h : p ∈ puzzlesOf rs who g) : ∃ v, minTimeOpt rs who g p = some v := by
  unfold minTimeOpt
  apply listMin_isSome
  unfold puzzlesOf at h
  rcases List.mem_map.mp h with ⟨r, hr, hrp⟩
  have hmem : r ∈ (senderGameRows rs who g).filter (fun r => r.puzzle_num == p) := by
    rw [List.mem_filter]
    exact ⟨hr, by simp [hrp]⟩
  intro hcon
  rw [List.map_eq_nil_iff] at hcon
  rw [hcon] at hmem
  exact absurd hmem (List.not_mem_nil r)

theorem minTimeOpt_spec (rs : List GameResult) (who g : String) (p t : Nat)
    (h : minTimeOpt rs who g p = some t) :
    (∃ r ∈ senderGameRows rs who g, r.puzzle_num = p ∧ r.time_sec = t)
    ∧ (∀ r ∈ senderGameRows rs who g, r.puzzle_num = p → t ≤ r.time_sec) := by
  unfold minTimeOpt at h
  rcases listMin_spec _ t h with ⟨hmem, hmin⟩
  constructor
  · rcases List.mem_map.mp hmem with ⟨r, hr, hrt⟩
    rcases List.mem_filter.mp hr with ⟨hr2, hpz⟩
    exact ⟨r, hr2, by simpa using hpz, hrt⟩
  · intro r hr hp
    apply hmin
    exact List.mem_map_of_mem _ (List.mem_filter.mpr ⟨hr, by simp [hp]⟩)

theorem mem_sharedPuzzles (rs : List GameResult) (me co g : String) (p : Nat) :
    p ∈ sharedPuzzles rs me co g ↔ (p ∈ puzzlesOf rs me g ∧ p ∈ puzzlesOf rs co g) := by
  unfold sharedPuzzles
  rw [mem_sortedDedup, List.mem_filter]
  simp

-- ── Claim C4: per-game scoring characterization ──────────────────────────────

/-- C4: the scorer handles each of the four games via `scoreGame`; for each
game the duel list carries exactly one duel per shared puzzle number, in
ascending order (the ascending list of shared puzzle numbers, which are
precisely those appearing for both participants); each duel's times are the
participants' collapsed minima for that puzzle, the winner is decided by
strict comparison of the two collapsed times; the collapsed value is a
realized minimum; and each counter equals the number of duels decided with
the corresponding label. -/
theorem compute_scores_characterization (rs : List GameResult) (my_name contact : String) :
    compute_scores rs my_name contact
      = GAMES.map (fun g => (g, scoreGame rs my_name contact g))
    ∧ ∀ g : String,
        ((scoreGame rs my_name contact g).duels.map (fun d => d.puzzle_num)
          = sharedPuzzles rs my_name contact g)
        ∧ (sharedPuzzles rs my_name contact g).Pairwise (· < ·)
        ∧ (∀ p, p ∈ sharedPuzzles rs my_name contact g ↔
            (p ∈ puzzlesOf rs my_name g ∧ p ∈ puzzlesOf rs contact g))
        ∧ (∀ d ∈ (scoreGame rs my_name contact g).duels,
            minTimeOpt rs my_name g d.puzzle_num = some d.my_time
            ∧ minTimeOpt rs contact g d.puzzle_num = some d.contact_time
            ∧ d.winner = (if d.my_time < d.contact_time then "me"
                else if d.contact_time < d.my_time then "contact" else "tie"))
        ∧ (∀ who p t, minTimeOpt rs who g p = some t →
            (∃ r ∈ senderGameRows rs who g, r.puzzle_num = p ∧ r.time_sec = t)
            ∧ (∀ r ∈ senderGameRows rs who g, r.puzzle_num = p → t ≤ r.time_sec))
        ∧ (scoreGame rs my_name contact g).me
            = ((scoreGame rs my_name contact g).duels.filter
                (fun d => d.winner == "me")).length
        ∧ (scoreGame rs my_name contact g).contact
            = ((scoreGame rs my_name contact g).duels.filter
                (fun d => d.winner == "contact")).length
        ∧ (scoreGame rs my_name contact g).tie
            = ((scoreGame rs my_name contact g).duels.filter
                (fun d => d.winner == "tie")).length := by
  refine ⟨rfl, ?_⟩
  intro g
  have hsg : scoreGame rs my_name contact g =
      { me := ((( sharedPuzzles rs my_name contact g).map
            (mkDuel (minTime rs my_name g) (minTime rs contact g))).filter
              (fun d => d.winner == "me")).length,
        contact := ((( sharedPuzzles rs my_name contact g).map
            (mkDuel (minTime rs my_name g) (minTime rs contact g))).filter
              (fun d => d.winner == "contact")).length,
        tie := ((( sharedPuzzles rs my_name contact g).map
            (mkDuel (minTime rs my_name g) (minTime rs contact g))).filter
              (fun d => d.winner == "tie")).length,
        duels := (sharedPuzzles rs my_name contact g).map
            (mkDuel (minTime rs my_name g) (minTime rs contact g)) } := by
    unfold scoreGame
    rw [foldl_duelStep]
    simp
  refine ⟨?_, pairwise_sortedDedup _, mem_sharedPuzzles rs my_name contact g, ?_, ?_, ?_, ?_, ?_⟩
  · rw [hsg]
    show List.map _ _ = _
    rw [List.map_map]
    have hcomp : ((fun d => d.puzzle_num) ∘
        mkDuel (minTime rs my_name g) (minTime rs contact g)) = fun p => p := by
      funext p
      simp [Function.comp, mkDuel_puzzle]
    rw [hcomp]
    simp
  · intro d hd
    rw [hsg] at hd
    rcases List.mem_map.mp hd with ⟨p, hp, rfl⟩
    have hp2 := (mem_sharedPuzzles rs my_name contact g p).mp hp
    rcases minTimeOpt_isSome rs my_name g p hp2.1 with ⟨v1, hv1⟩
    rcases minTimeOpt_isSome rs contact g p hp2.2 with ⟨v2, hv2⟩
    have hm1 : minTime rs my_name g p = v1 := by simp [minTime, hv1]
    have hm2 : minTime rs contact g p = v2 := by simp [minTime, hv2]
    rw [mkDuel_fields]
    refine ⟨?_, ?_, rfl⟩
    · simpa [hm1] using hv1
    · simpa [hm2] using hv2
  · intro who p t ht
    exact minTimeOpt_spec rs who g p t ht
  · rw [hsg]
  · rw [hsg]
  · rw [hsg]

/-- Concrete result set for the C4 witness. -/
def c4rs : List GameResult :=
  [⟨"me", none, "Tango", 1, 40⟩, ⟨"co", none, "Tango", 1, 50⟩]

/-- Witness for C4: the duel characterization applied to the single duel of
a concrete two-record set. -/
theorem compute_scores_characterization_witness :
    (⟨1, 40, 50, "me"⟩ : Duel) ∈ (scoreGame c4rs "me" "co" "Tango").duels
    ∧ (minTimeOpt c4rs "me" "Tango" (1 : Nat) = some 40
        ∧ minTimeOpt c4rs "co" "Tango" (1 : Nat) = some 50
        ∧ ("me" : String) = (if (40 : Nat) < 50 then "me"
            else if (50 : Nat) < 40 then "contact" else "tie")) :=
  ⟨by decide,
   ((compute_scores_characterization c4rs "me" "co").2 "Tango").2.2.2.1
     ⟨1, 40, 50, "me"⟩ (by decide)⟩

-- ── Claim C5: scorer symmetry ─────────────────────────────────────────────────

/-- Relabelling of a duel winner under a swap of the two participants. -/
def flipWinner (w : String) : String :=
  if w = "me" then "contact" else if w = "contact" then "me" else w

/-- A duel as seen from the swapped perspective. -/
def flipDuel (d : Duel) : Duel :=
  ⟨d.puzzle_num, d.contact_time, d.my_time, flipWinner d.winner⟩

/-- A per-game score as seen from the swapped perspective. -/
def flipScore (s : GameScore) : GameScore :=
  ⟨s.contact, s.me, s.tie, s.duels.map flipDuel⟩

theorem duelStep_flip (mtf ctf : Nat → Nat) (acc : GameScore) (p : Nat) :
    duelStep ctf mtf (flipScore acc) p = flipScore (duelStep mtf ctf acc p) := by
  rcases lt_trichotomy (mtf p) (ctf p) with h | h | h
  · have h2 : ¬ ctf p < mtf p := by omega
    simp [duelStep, flipScore, flipDuel, flipWinner, h, h2]
  · have h2 : ¬ mtf p < ctf p := by omega
    have h3 : ¬ ctf p < mtf p := by omega
    simp [duelStep, flipScore, flipDuel, flipWinner, h2, h3]
  · have h2 : ¬ mtf p < ctf p := by omega
    simp [duelStep, flipScore, flipDuel, flipWinner, h, h2]

theorem foldl_duelStep_flip (mtf ctf : Nat → Nat) :
    ∀ (ps : List Nat) (acc : GameScore),
      ps.foldl (duelStep ctf mtf) (flipScore acc)
        = flipScore (ps.foldl (duelStep mtf ctf) acc) := by
  intro ps
  induction ps with
  | nil => intro acc; rfl
  | cons p ps ih =>
    intro acc
    rw [List.foldl_cons, List.foldl_cons, duelStep_flip, ih]

theorem sharedPuzzles_comm (rs : List GameResult) (a b g : String) :
    sharedPuzzles rs a b g = sharedPuzzles rs b a g :=
  pairwise_lt_eq_of_mem_iff (sharedPuzzles rs a b g) (sharedPuzzles rs b a g)
    (pairwise_sortedDedup _) (pairwise_sortedDedup _)
    (fun x => by rw [mem_sharedPuzzles, mem_sharedPuzzles]; tauto)

theorem scoreGame_swap (rs : List GameResult) (a b g : String) :
    scoreGame rs b a g = flipScore (scoreGame rs a b g) := by
  unfold scoreGame
  rw [sharedPuzzles_comm rs b a g]
  nth_rewrite 1 [show (⟨0,0,0,[]⟩ : GameScore) = flipScore ⟨0,0,0,[]⟩ from rfl]
  exact foldl_duelStep_flip (minTime rs a g) (minTime rs b g) _ _

/-- C5: swapping the two name arguments of the scorer swaps the per-game
`me` and `contact` counters, flips each duel's winner label between me and
contact while swapping `my_time` with `contact_time`, and leaves every tie
count (and tie label) unchanged. -/
theorem compute_scores_swap (rs : List GameResult) (a b : String) :
    compute_scores rs b a
      = (compute_scores rs a b).map (fun gs => (gs.1, flipScore gs.2)) := by
  unfold compute_scores
  rw [List.map_map]
  congr 1
  funext g
  show (g, scoreGame rs b a g) = (g, flipScore (scoreGame rs a b g))
  rw [scoreGame_swap]

-- ── Claim C9: extractors return normally, date failures become null ──────────

/-- C9: the tabular extractor is total and tolerant — for every date parser
behaviour the output has exactly one record per token-bearing row (a date
parse failure never drops a row or aborts); a token-bearing row whose date
fails to parse yields its record with `date = none`; and the transcript
extractor likewise degrades to empty output (never an error) when no
markers are found. -/
theorem parse_messages_total (dp : String → Option String) (rows : List Row) :
    ((parse_messages dp rows).length
      = (rows.filter (fun r => (searchGame r.content).isSome)).length)
    ∧ (∀ row ∈ rows, ∀ t, searchGame row.content = some t → dp row.date_s = none →
        (⟨pyStrip row.sender, none, canonGame t.raw, t.puzzle,
            to_seconds t.mins t.secs⟩ : GameResult) ∈ parse_messages dp rows)
    ∧ (∀ text a b, (parse_conversation text a b).2 = false →
        (parse_conversation text a b).1 = []) := by
  refine ⟨?_, ?_, ?_⟩
  · induction rows with
    | nil => rfl
    | cons r rs ih =>
      simp only [parse_messages, List.filterMap_cons, List.filter_cons]
      cases hs : searchGame r.content with
      | none =>
        simp only [Option.map_none', hs, Option.isSome_none, Bool.false_eq_true,
          if_false]
        exact ih
      | some t =>
        simp only [Option.map_some', hs, Option.isSome_some, if_true, List.length_cons]
        rw [show List.filterMap _ rs = parse_messages dp rs from rfl, ih]
  · intro row hrow t hs hdp
    apply List.mem_filterMap.mpr
    refine ⟨row, hrow, ?_⟩
    rw [hs, Option.map_some']
    rw [hdp]
  · intro text a b h
    simp only [parse_conversation, Bool.not_eq_false'] at h ⊢
    have hms : convMarkers text a b = [] := List.isEmpty_iff.mp h
    rw [hms]
    simp [findSender, lastMarkerBefore, List.filterMap_eq_nil_iff]

/-- Concrete row for the C9 witness: content holds a token, the date field
is garbage. -/
def c9row : Row := ⟨" Ana ", "Tango nº 5 | 1:02", "not a date"⟩

/-- Concrete row list for the C9 witness. -/
def c9rows : List Row := [c9row]

/-- Witness for C9 on a row whose date parser always fails: the record is
still produced, with a null date. -/
theorem parse_messages_total_witness :
    c9row ∈ c9rows
    ∧ searchGame c9row.content = some ⟨0, "Tango", 5, 1, 2⟩
    ∧ ((⟨pyStrip c9row.sender, none, canonGame "Tango", 5,
          to_seconds 1 2⟩ : GameResult) ∈ parse_messages (fun _ => none) c9rows) :=
  ⟨by decide, by decide,
   (parse_messages_total (fun _ => none) c9rows).2.1 c9row (by decide)
     ⟨0, "Tango", 5, 1, 2⟩ (by decide) rfl⟩

-- ── Claim C10: detect_speakers ────────────────────────────────────────────────

/-- First-occurrence deduplication with an explicit seen set. -/
def dedupFirstAux : List String → List String → List String
  | [], _ => []
  | x :: xs, seen =>
    if x ∈ seen then dedupFirstAux xs seen else x :: dedupFirstAux xs (x :: seen)

/-- Keep the first occurrence of each element, in order of first appearance. -/
def dedupFirst (l : List String) : List String := dedupFirstAux l []

theorem detectLoop_spec :
    ∀ (l : List String) (seen names : List String),
      (detectLoop l (seen, names)).2 = names ++ dedupFirstAux (l.map pyStrip) seen := by
  intro l
  induction l with
  | nil =>
    intro seen names
    simp [detectLoop, dedupFirstAux]
  | cons nm rest ih =>
    intro seen names
    simp only [detectLoop, List.map_cons, dedupFirstAux]
    by_cases h : pyStrip nm ∈ seen
    · rw [if_pos h, if_pos h, ih]
    · rw [if_neg h, if_neg h, ih]
      simp

theorem dedupFirstAux_not_seen :
    ∀ (l seen : List String), ∀ x ∈ dedupFirstAux l seen, x ∉ seen := by
  intro l
  induction l with
  | nil => intro seen x hx; simp [dedupFirstAux] at hx
  | cons y ys ih =>
    intro seen x hx
    by_cases h : y ∈ seen
    · rw [dedupFirstAux, if_pos h] at hx
      exact ih seen x hx
    · rw [dedupFirstAux, if_neg h] at hx
      rcases List.mem_cons.mp hx with rfl | hx
      · exact h
      · intro hcon
        exact (ih (y :: seen) x hx) (List.mem_cons_of_mem _ hcon)

theorem dedupFirstAux_nodup : ∀ (l seen : List String), (dedupFirstAux l seen).Nodup := by
  intro l
  induction l with
  | nil => intro seen; simp [dedupFirstAux]
  | cons y ys ih =>
    intro seen
    by_cases h : y ∈ seen
    · rw [dedupFirstAux, if_pos h]
      exact ih seen
    · rw [dedupFirstAux, if_neg h]
      refine List.nodup_cons.mpr ⟨?_, ih _⟩
      intro hcon
      exact (dedupFirstAux_not_seen ys (y :: seen) y hcon) (List.mem_cons_self _ _)

theorem mem_dedupFirstAux :
    ∀ (l seen : List String) (x : String),
      x ∈ dedupFirstAux l seen ↔ (x ∈ l ∧ x ∉ seen) := by
  intro l
  induction l with
  | nil => intro seen x; simp [dedupFirstAux]
  | cons y ys ih =>
    intro seen x
    by_cases h : y ∈ seen
    · rw [dedupFirstAux, if_pos h, ih]
      simp only [List.mem_cons]
      constructor
      · rintro ⟨hx, hs⟩
        exact ⟨Or.inr hx, hs⟩
      · rintro ⟨hx | hx, hs⟩
        · exact absurd (hx ▸ h) hs
        · exact ⟨hx, hs⟩
    · rw [dedupFirstAux, if_neg h]
      simp only [List.mem_cons, ih]
      constructor
      · rintro (rfl | ⟨hx, hs⟩)
        · exact ⟨Or.inl rfl, h⟩
        · refine ⟨Or.inr hx, ?_⟩
          intro hcon
          exact hs (Or.inr hcon)
      · rintro ⟨rfl | hx, hs⟩
        · exact Or.inl rfl
        · by_cases hxy : x = y
          · exact Or.inl hxy
          · exact Or.inr ⟨hx, by simp [hxy, hs]⟩

/-- C10 (amended): `detect_speakers` returns, without duplicates and in
order of first appearance, the whitespace-stripped group-1 captures of the
leftmost non-overlapping matches of `^(.+?)\s{2,}\d{1,2}:\d{2}\s*$` in
multiline mode.  Because `\s` also matches line breaks, the separating
whitespace run may cross a line boundary, so a match — and hence a speaker —
may span two physical lines; on a single line where only one whitespace
character separates the name from the trailing time (and no line break
continues the run), no speaker is produced. -/
theorem detect_speakers_characterization (text : String) :
    detect_speakers text = dedupFirst ((speakerMatches text).map pyStrip)
    ∧ (detect_speakers text).Nodup
    ∧ (∀ x, x ∈ detect_speakers text ↔ x ∈ (speakerMatches text).map pyStrip)
    ∧ detect_speakers "Ana  1:23" = ["Ana"]
    ∧ detect_speakers "Ana 1:23" = [] := by
  have hchar : detect_speakers text = dedupFirst ((speakerMatches text).map pyStrip) := by
    unfold detect_speakers dedupFirst
    rw [detectLoop_spec]
    simp
  refine ⟨hchar, ?_, ?_, by decide, by decide⟩
  · rw [hchar]
    exact dedupFirstAux_nodup _ _
  · intro x
    rw [hchar]
    unfold dedupFirst
    rw [mem_dedupFirstAux]
    simp

-- Spec-side reading of the original claim: a purely line-local extraction.

/-- Does `l` consist of two-or-more whitespace characters, a one-or-two
digit number, a colon, two digits, and optional trailing whitespace only? -/
def lineTimeTail (l : List Char) : Bool :=
  let w := countWhile isWS l
  if w < 2 then false else
  let r := l.drop w
  let d1 := countWhile isDigitC r
  if d1 = 0 || d1 > 2 then false else
  match r.drop d1 with
  | ':' :: a :: b :: r3 => isDigitC a && isDigitC b && ((r3.dropWhile isWS).isEmpty)
  | _ => false

/-- The whitespace-stripped non-empty prefix of a line whose remainder is a
`lineTimeTail`, when one exists (earliest split first). -/
def lineNameGo (acc : List Char) : List Char → Option String
  | [] => none
  | c :: cs =>
    if lineTimeTail (c :: cs) && !acc.isEmpty
    then some (pyStrip (String.mk acc.reverse))
    else lineNameGo (c :: acc) cs

/-- Split a character list into physical lines at newline characters. -/
def splitLinesGo : List Char → List Char → List (List Char)
  | [], acc => [acc.reverse]
  | c :: cs, acc =>
    if c = '\n' then acc.reverse :: splitLinesGo cs [] else splitLinesGo cs (c :: acc)

/-- The physical lines of a text. -/
def splitLines (l : List Char) : List (List Char) := splitLinesGo l []

/-- The original claim's line-local reading of speaker detection: the
stripped prefix of every line ending in two-or-more whitespace plus a time,
first occurrences only. -/
def claimLineSpeakers (text : String) : List String :=
  dedupFirst ((splitLines text.data).filterMap (fun l => lineNameGo [] l))

/-- Counterexample to C10 as stated: in `"Ana \n 1:23"` no single line ends
with two-or-more whitespace followed by a time (the line-local reading
yields no speaker), yet `detect_speakers` returns `["Ana"]`, because the
two-or-more-whitespace separator of the header pattern matches across the
line break. -/
theorem detect_speakers_cex :
    detect_speakers "Ana \n 1:23" = ["Ana"]
    ∧ claimLineSpeakers "Ana \n 1:23" = []
    ∧ splitLines "Ana \n 1:23".data = ["Ana ".data, " 1:23".data] := by
  decide
